import Mathlib

/-!
Verification of the RAG-Personal-Diary-Chatbot indexing and retrieval core.

This file gives a shallow embedding, in Lean 4, of the parts of the
repository that the specification talks about:

* `src/Indexingstep/embedding_and_storing.py`
  (`DiaryEmbeddingAndStorage._filter_metadata`,
   `embed_and_store_documents`, `batch_process_documents`,
   `delete_documents_by_metadata`),
* `src/Indexingstep/diary_text_splitter.py` (`DiaryTextSplitter`),
* `src/Indexingstep/dataloading.py`
  (`DiaryDataLoader._extract_tags_from_content`, the tag combination
   in `load`, and `DiaryContentPreprocessor.preprocess_content`),
* `src/Indexingstep/utils/orchestrator.py` (`IndexingOrchestrator`),
* `src/Indexingstep/utils/sync_state.py` (`SyncStateStore`),
* `src/Retrivel_And_Generation/Retrieval_And_Generator.py`
  (`DiaryRAGSystem.retrieve_relevant_entries`).

Python dictionaries are modelled as association lists with
assignment-overwrite semantics; Python values occurring in metadata are
modelled by the inductive type `MValue`; timestamps (`datetime`) are
modelled as naturals ordered as the datetimes are; fallible calls into
external backends (the Google embedding API, the Chroma vector store)
are modelled by environment functions returning `Option`/`Bool`
outcomes, and a `try/except` around such a call becomes a `match` on
that outcome.  Only ASCII text behaviour is modelled: Python's `\w`,
`str.split()`, `str.strip()` and `str.lower()` are translated on their
ASCII core.
-/

namespace Diary

/-- A Python value as it can occur in a metadata dictionary.
`float` and `other` carry the string `str(value)` would produce, since
the code never computes with them, only passes them through or
stringifies them; `pyset` keeps its elements (sets hit the final
`else` branch of `_filter_metadata`). -/
inductive MValue : Type
  | str (s : String)
  | int (n : Int)
  | float (sval : String)
  | bool (b : Bool)
  | none
  | list (l : List MValue)
  | dict (d : List (String × MValue))
  | pyset (l : List MValue)
  | other (sval : String)

mutual

/-- Python `repr(item)` as used when a list is stringified; only the cases
exercised by the code matter. -/
def pyRepr : MValue → String
  | .str s => "'" ++ s ++ "'"
  | .int n => toString n
  | .float sval => sval
  | .bool b => if b then "True" else "False"
  | .none => "None"
  | .list l => "[" ++ String.intercalate ", " (pyReprList l) ++ "]"
  | .dict _ => "\x7b...\x7d"
  | .pyset l => "\x7b" ++ String.intercalate ", " (pyReprList l) ++ "\x7d"
  | .other sval => sval

/-- The `repr` of each element of a list. -/
def pyReprList : List MValue → List String
  | [] => []
  | v :: vs => pyRepr v :: pyReprList vs

end

/-- Python `str(value)` for the values above (Python's default textual
representation, on the cases the code can reach). -/
def pyStr : MValue → String
  | .str s => s
  | .int n => toString n
  | .float sval => sval
  | .bool b => if b then "True" else "False"
  | .none => "None"
  | .list l => "[" ++ String.intercalate ", " (pyReprList l) ++ "]"
  | .dict _ => "\x7b...\x7d"
  | .pyset l => "\x7b" ++ String.intercalate ", " (pyReprList l) ++ "\x7d"
  | .other sval => sval

mutual

/-- Python `==` on metadata values. -/
def MValue.beq : MValue → MValue → Bool
  | .str a, .str b => a == b
  | .int a, .int b => a == b
  | .float a, .float b => a == b
  | .bool a, .bool b => a == b
  | .none, .none => true
  | .list a, .list b => MValue.beqList a b
  | .dict a, .dict b => MValue.beqPairs a b
  | .pyset a, .pyset b => MValue.beqList a b
  | .other a, .other b => a == b
  | _, _ => false

/-- Elementwise `==` on lists of metadata values. -/
def MValue.beqList : List MValue → List MValue → Bool
  | [], [] => true
  | x :: xs, y :: ys => MValue.beq x y && MValue.beqList xs ys
  | _, _ => false

/-- Pairwise `==` on key/value pair lists. -/
def MValue.beqPairs : List (String × MValue) → List (String × MValue) → Bool
  | [], [] => true
  | (k, x) :: xs, (k', y) :: ys => k == k' && MValue.beq x y && MValue.beqPairs xs ys
  | _, _ => false

end

/-- A value `isinstance(value, (str, int, float, bool)) or value is None`
accepts: exactly the types ChromaDB supports. -/
def MValue.isPrimitive : MValue → Bool
  | .str _ | .int _ | .float _ | .bool _ | .none => true
  | _ => false

/-- Python dictionaries with string keys, as association lists in
insertion order. -/
abbrev PyDict := List (String × MValue)

/-- Assignment `d[k] = v` on a Python dict: overwrite if the key is present,
append otherwise. -/
def dictInsert (d : PyDict) (k : String) (v : MValue) : PyDict :=
  if d.any (fun p => p.1 = k) then
    d.map (fun p => if p.1 = k then (k, v) else p)
  else
    d ++ [(k, v)]

/-- Lookup `d.get(k)`: `some` value or `none` when the key is absent. -/
def dictGet (d : PyDict) (k : String) : Option MValue :=
  (d.find? (fun p => p.1 = k)).map (·.2)

/-- Insert several pairs in order (a sequence of `d[k] = v` statements). -/
def dictInsertAll (d : PyDict) (ps : List (String × MValue)) : PyDict :=
  ps.foldl (fun a p => dictInsert a p.1 p.2) d

/-- The pairs `DiaryEmbeddingAndStorage._filter_metadata` emits for one
input pair `(key, value)`, in emission order
(`embedding_and_storing.py:31-45`): primitives and `None` pass through;
a non-empty list becomes `key_list` (elements stringified, joined with
`", "`) and `key_count`; an empty list and a dict emit nothing; anything
else is stringified. -/
def filterValuePairs (key : String) : MValue → List (String × MValue)
  | .str s => [(key, .str s)]
  | .int n => [(key, .int n)]
  | .float f => [(key, .float f)]
  | .bool b => [(key, .bool b)]
  | .none => [(key, .none)]
  | .list l =>
      if l.isEmpty then []
      else [(key ++ "_list", .str (String.intercalate ", " (l.map pyStr))),
            (key ++ "_count", .int l.length)]
  | .dict _ => []
  | .pyset l => [(key, .str (pyStr (.pyset l)))]
  | .other sval => [(key, .str sval)]

/-- Translation of `DiaryEmbeddingAndStorage._filter_metadata`
(`embedding_and_storing.py:19-47`): build `filtered` by iterating over
the input pairs and assigning each emitted pair into the fresh dict. -/
def filter_metadata (m : PyDict) : PyDict :=
  m.foldl (fun acc p => dictInsertAll acc (filterValuePairs p.1 p.2)) []

/-- Is the value a list, set, or mapping (the shapes coercion must
eliminate)? -/
def MValue.isListSetOrDict : MValue → Bool
  | .list _ | .pyset _ | .dict _ => true
  | _ => false

/-! The diary text splitter, `diary_text_splitter.py`. -/
/-- A LangChain `Document`: page content plus metadata. -/
structure Document where
  page_content : String
  metadata : PyDict

/-- The `DiaryTextSplitter` construction parameters
(`diary_text_splitter.py:23-41`, defaults 300/50). -/
structure SplitterConfig where
  chunk_size : Nat := 300
  chunk_overlap : Nat := 50

/-- Translation of `DiaryTextSplitter._estimate_tokens`: `len(text) // 4`. -/
def estimate_tokens (text : String) : Nat := text.length / 4

/-- Translation of `DiaryTextSplitter._should_split_entry`: split iff the estimated
token count exceeds 250. -/
def should_split_entry (content : String) : Bool :=
  decide (estimate_tokens content > 250)

/-- Modelled from the spec: `RecursiveCharacterTextSplitter.split_text`,
which `DiaryTextSplitter` delegates to for long entries, is library
code (LangChain), not part of this repository's sources.  Spec §4.3
describes it as cutting long text into chunks of at most `chunk_size`
characters with adjacent chunks overlapping by `chunk_overlap`
characters, falling back to raw characters as the last resort; we model
that character-level cascade as windows of `chunk_size` characters
advancing by `chunk_size - chunk_overlap`.  The `fuel` argument bounds
the recursion by the text length. -/
def splitTextWindows (chunkSize step : Nat) : Nat → List Char → List String
  | 0, _ => []
  | _ + 1, [] => []
  | fuel + 1, c :: cs =>
      String.mk ((c :: cs).take chunkSize)
        :: splitTextWindows chunkSize step fuel ((c :: cs).drop step)

/-- Modelled from the spec: chunking of a long entry (see
`splitTextWindows`). -/
def split_text (cfg : SplitterConfig) (text : String) : List String :=
  splitTextWindows cfg.chunk_size (cfg.chunk_size - cfg.chunk_overlap)
    text.length text.data

/-- Translation of `DiaryTextSplitter._create_chunk_metadata`
(`diary_text_splitter.py:91-113`): copy the document metadata and add
`chunk_index`, `total_chunks`, `is_chunked` and `chunk_id`. -/
def create_chunk_metadata (doc : Document) (chunk_index total_chunks : Nat) :
    PyDict :=
  dictInsertAll doc.metadata
    [("chunk_index", .int chunk_index),
     ("total_chunks", .int total_chunks),
     ("is_chunked", .bool (decide (total_chunks > 1))),
     ("chunk_id", .str (pyStr ((dictGet doc.metadata "entry_id").getD
        (.str "unknown")) ++ "_" ++ toString chunk_index))]

/-- The `chunk_position` expression of `diary_text_splitter.py:154`. -/
def chunkPosition (i total : Nat) : String :=
  if i = 0 then "start" else if i = total - 1 then "end" else "middle"

/-- Translation of `DiaryTextSplitter.split_documents`
(`diary_text_splitter.py:115-163`): short entries stay whole as one
chunk; long entries are split and each chunk also records its
`chunk_position`. -/
def split_documents (cfg : SplitterConfig) (documents : List Document) :
    List Document :=
  documents.flatMap fun doc =>
    if ¬ should_split_entry doc.page_content then
      [⟨doc.page_content, create_chunk_metadata doc 0 1⟩]
    else
      let text_chunks := split_text cfg doc.page_content
      let total_chunks := text_chunks.length
      text_chunks.enum.map fun p =>
        ⟨p.2, dictInsert (create_chunk_metadata doc p.1 total_chunks)
          "chunk_position" (.str (chunkPosition p.1 total_chunks))⟩

/-! Tag extraction, `dataloading.py`. -/
/-- A `\w` word character (ASCII core): letter, digit or underscore. -/
def isWordChar (c : Char) : Bool := c.isAlpha || c.isDigit || c = '_'

/-- Maximal `\w+` run at the front of the text, with the rest. -/
def wordRun : List Char → List Char × List Char
  | [] => ([], [])
  | c :: cs =>
    if isWordChar c then
      let wr := wordRun cs
      (c :: wr.1, wr.2)
    else ([], c :: cs)

/-- The `(?:[_-]\w+)*` continuation of a hashtag match: greedily
consume `-`/`_` followed by a `\w+` run; stop (consuming nothing) when
the joiner is not followed by a word character.  `fuel` bounds the
recursion by the remaining length. -/
def dashParts : Nat → List Char → List Char × List Char
  | 0, l => ([], l)
  | _ + 1, [] => ([], [])
  | fuel + 1, c :: cs =>
    if c = '-' || c = '_' then
      let wr := wordRun cs
      if wr.1.isEmpty then ([], c :: cs)
      else
        let tr := dashParts fuel wr.2
        (c :: (wr.1 ++ tr.1), tr.2)
    else ([], c :: cs)

/-- Python `re.findall(r'#(\w+(?:[_-]\w+)*)', content, re.IGNORECASE)`:
left-to-right, non-overlapping matches; each match is the captured
group (without the `#`).  `fuel` bounds the scan by the text length. -/
def findTags : Nat → List Char → List String
  | 0, _ => []
  | _ + 1, [] => []
  | fuel + 1, c :: cs =>
    if c = '#' then
      let wr := wordRun cs
      if wr.1.isEmpty then findTags fuel cs
      else
        let tr := dashParts wr.2.length wr.2
        String.mk (wr.1 ++ tr.1) :: findTags fuel tr.2
    else findTags fuel cs

/-- Python `str.lower()` (ASCII core), character by character. -/
def pyLower (s : String) : String := String.mk (s.data.map Char.toLower)

/-- Translation of `DiaryDataLoader._extract_tags_from_content`
(`dataloading.py:46-64`): regex-match hashtags, lower-case,
deduplicate.  Python's `list(set(...))` has unspecified order; we model
it as `List.dedup`. -/
def extract_tags_from_content (content : String) : List String :=
  if content = "" then []
  else ((findTags content.data.length content.data).map pyLower).dedup

/-- Python `str.strip()` (ASCII whitespace) on a character list. -/
def stripChars (l : List Char) : List Char :=
  ((l.dropWhile Char.isWhitespace).reverse.dropWhile Char.isWhitespace).reverse

/-- Python `str.strip()`. -/
def pyStrip (s : String) : String := String.mk (stripChars s.data)

/-- Python `str.split(sep)` for a one-character separator, keeping
empty fields (`"".split(',') == ['']`). -/
def splitChar (sep : Char) : List Char → List (List Char)
  | [] => [[]]
  | c :: cs =>
    match splitChar sep cs with
    | [] => [[]]
    | t :: ts => if c = sep then [] :: t :: ts else (c :: t) :: ts

/-- The author-tag list built in `DiaryDataLoader.load`
(`dataloading.py:222`):
`[tag.strip() for tag in db_tags.split(',') if tag.strip()] if db_tags else []`.
Note: the author tags are split and trimmed but NOT lower-cased. -/
def dbTagList (db_tags : String) : List String :=
  if db_tags = "" then []
  else ((splitChar ',' db_tags.data).map (fun t => String.mk (stripChars t))).filter
    (fun t => t ≠ "")

/-- The `all_tags` list as built in `DiaryDataLoader.load` (`dataloading.py:223`):
`list(set(content_tags + db_tag_list))`. -/
def allTags (content db_tags : String) : List String :=
  (extract_tags_from_content content ++ dbTagList db_tags).dedup

/-! The indexing orchestrator data model
(`utils/models.py`, `utils/orchestrator.py`, `utils/sync_state.py`,
`utils/repository.py`) and the embedding storage
(`embedding_and_storing.py`).  Timestamps (`datetime`) are modelled as
naturals ordered like the datetimes; `isoformat` is modelled by the
decimal representation. -/
/-- Python `str.split()` (no argument): split on whitespace runs,
dropping empty tokens; `fuel` bounds the scan by the text length. -/
def pyTokens : Nat → List Char → List (List Char)
  | 0, _ => []
  | _ + 1, [] => []
  | fuel + 1, c :: cs =>
    if c.isWhitespace then pyTokens fuel cs
    else ((c :: cs).takeWhile (fun x => !x.isWhitespace))
      :: pyTokens fuel ((c :: cs).dropWhile (fun x => !x.isWhitespace))

/-- Python `str.split()` on a string. -/
def pySplitWs (s : String) : List String :=
  (pyTokens s.data.length s.data).map String.mk

/-- Translation of `DiaryEntry` (`utils/models.py:10-41`). -/
structure DiaryEntry where
  id : Int
  user_id : Int
  date : String
  content : String
  tags : String
  created_at : Nat

/-- Translation of `DiaryChunk` (`utils/models.py:44-72`). -/
structure DiaryChunk where
  entry_id : Int
  user_id : Int
  chunk_id : String
  text : String
  metadata : PyDict

/-- Translation of `DiaryChunk.from_entry_and_text` (`utils/models.py:53-72`). -/
def DiaryChunk.from_entry_and_text (entry : DiaryEntry) (text : String)
    (chunk_index : Nat) : DiaryChunk where
  entry_id := entry.id
  user_id := entry.user_id
  chunk_id := toString entry.id ++ "_" ++ toString chunk_index
  text := text
  metadata :=
    [("entry_id", .int entry.id),
     ("user_id", .int entry.user_id),
     ("date", .str entry.date),
     ("tags", .str entry.tags),
     ("chunk_index", .int chunk_index),
     ("created_at", .str (toString entry.created_at))]

/-- Python `str.startswith(pre)` on character lists. -/
def startsWithChars : List Char → List Char → Bool
  | [], _ => true
  | _ :: _, [] => false
  | p :: ps, c :: cs => p = c && startsWithChars ps cs

/-- Python `str.replace(pat, rep)`: replace every non-overlapping
occurrence, left to right; `fuel` bounds the scan (the patterns used by
the code are non-empty). -/
def replaceAll (pat rep : List Char) : Nat → List Char → List Char
  | 0, l => l
  | _ + 1, [] => []
  | fuel + 1, c :: cs =>
    if !pat.isEmpty && startsWithChars pat (c :: cs) then
      rep ++ replaceAll pat rep fuel ((c :: cs).drop pat.length)
    else c :: replaceAll pat rep fuel cs

/-- Python `line.replace(pat, "")` followed by `.strip()`, as used for the
`Title: ` / `Content: ` envelope lines. -/
def replaceStrip (pat : String) (line : List Char) : String :=
  String.mk (stripChars (replaceAll pat.data [] line.length line))

/-- Translation of `DiaryTextSplitter.split_diary_entry`
(`diary_text_splitter.py:194-241`): extract a `Title:`/`Content:`
envelope, build the entry metadata, and split the single document. -/
def split_diary_entry (cfg : SplitterConfig) (entry : DiaryEntry) :
    List Document :=
  let content := entry.content
  let te : String × String :=
    if startsWithChars "Title: ".data content.data then
      (splitChar '\n' content.data).foldl (fun acc line =>
        if startsWithChars "Title: ".data line then
          (replaceStrip "Title: " line, acc.2)
        else if startsWithChars "Content: ".data line then
          (acc.1, replaceStrip "Content: " line)
        else acc) ("", content)
    else ("", content)
  let title := te.1
  let actual_content := te.2
  let metadata : PyDict :=
    [("entry_id", .str (toString entry.id)),
     ("user_id", .int entry.user_id),
     ("date", .str entry.date),
     ("tags", .str entry.tags),
     ("created_at", .str (toString entry.created_at)),
     ("type", .str "diary_entry"),
     ("content_length", .int actual_content.length),
     ("word_count", .int (pySplitWs actual_content).length)]
  let metadata :=
    if title ≠ "" then dictInsert metadata "title" (.str title) else metadata
  split_documents cfg [⟨actual_content, metadata⟩]

/-- Translation of `IndexingOrchestrator.process_entries` (`orchestrator.py:123-155`):
split every entry and convert each produced chunk to a `DiaryChunk`.
The `try` around this body only guards library calls whose pure
translation cannot fail. -/
def process_entries (cfg : SplitterConfig) (entries : List DiaryEntry) :
    List DiaryChunk :=
  if entries.isEmpty then []
  else entries.flatMap fun entry =>
    (split_diary_entry cfg entry).enum.map fun p =>
      DiaryChunk.from_entry_and_text entry p.2.page_content p.1

/-- The per-user Chroma collection: stored documents in insertion
order. -/
abbrev VectorStore := List Document

/-- External-backend outcomes for the embedding + vector-store write:
`addOk batch` tells whether `vector_store.add_documents(batch)`
succeeds (`false` models a raised exception). -/
structure EmbedEnv where
  addOk : List Document → Bool

/-- Document `d` with its metadata coerced, as built inside
`embed_and_store_documents`. -/
def filterDoc (d : Document) : Document :=
  ⟨d.page_content, filter_metadata d.metadata⟩

/-- Translation of `DiaryEmbeddingAndStorage.embed_and_store_documents`
(`embedding_and_storing.py:118-158`): empty input returns no ids
without writing; otherwise the metadata-coerced batch is added to the
store and one id per document is returned (modelled by the count);
`none` models the raised exception. -/
def embed_and_store_documents (env : EmbedEnv) (store : VectorStore)
    (documents : List Document) : Option (VectorStore × Nat) :=
  if documents.isEmpty then some (store, 0)
  else if env.addOk (documents.map filterDoc) then
    some (store ++ documents.map filterDoc, (documents.map filterDoc).length)
  else none

/-- Batches `documents[i:i+batch_size]` for `i in range(0, len(documents),
batch_size)`: the list cut into consecutive batches; `fuel` bounds the
recursion. -/
def toBatches {α : Type} (batchSize : Nat) : Nat → List α → List (List α)
  | 0, _ => []
  | _ + 1, [] => []
  | fuel + 1, c :: cs =>
      (c :: cs).take batchSize :: toBatches batchSize fuel ((c :: cs).drop batchSize)

/-- The loop of `batch_process_documents`
(`embedding_and_storing.py:395-406`): a failed batch is logged and
skipped (`continue`), a successful batch extends the store and its ids
accumulate. -/
def batch_process_loop (env : EmbedEnv) :
    List (List Document) → VectorStore → VectorStore × Nat
  | [], store => (store, 0)
  | b :: bs, store =>
    match embed_and_store_documents env store b with
    | some (store', n) =>
        let r := batch_process_loop env bs store'
        (r.1, n + r.2)
    | Option.none => batch_process_loop env bs store

/-- Translation of `DiaryEmbeddingAndStorage.batch_process_documents`
(`embedding_and_storing.py:380-409`, default batch size 100). -/
def batch_process_documents (env : EmbedEnv) (store : VectorStore)
    (documents : List Document) (batch_size : Nat) : VectorStore × Nat :=
  batch_process_loop env (toBatches batch_size documents.length documents) store

/-- The `IndexingConfig` fields the orchestrator uses
(`utils/models.py:75-85`; defaults `chunk_size=800`,
`chunk_overlap=100`, `batch_size=50`). -/
structure OrchConfig where
  batch_size : Nat := 50
  chunk_size : Nat := 800
  chunk_overlap : Nat := 100

/-- The `DiaryTextSplitter` the orchestrator builds from its config
(`orchestrator.py:64-67`). -/
def OrchConfig.splitter (cfg : OrchConfig) : SplitterConfig :=
  ⟨cfg.chunk_size, cfg.chunk_overlap⟩

/-- The batch loop of `IndexingOrchestrator.embed_and_store`
(`orchestrator.py:187-197`): a raised exception in any batch aborts the
whole function (the `except` at lines 202-204 returns `False`); batches
after the failed one are never attempted. -/
def orchEmbedLoop (env : EmbedEnv) :
    List (List Document) → VectorStore → Bool × VectorStore
  | [], store => (true, store)
  | b :: bs, store =>
    match embed_and_store_documents env store b with
    | some (store', _) => orchEmbedLoop env bs store'
    | Option.none => (false, store)

/-- Translation of `IndexingOrchestrator.embed_and_store` (`orchestrator.py:157-204`). -/
def IndexingOrchestrator.embed_and_store (cfg : OrchConfig) (env : EmbedEnv)
    (store : VectorStore) (chunks : List DiaryChunk) : Bool × VectorStore :=
  if chunks.isEmpty then (true, store)
  else
    let documents : List Document := chunks.map fun c => ⟨c.text, c.metadata⟩
    orchEmbedLoop env (toBatches cfg.batch_size documents.length documents) store

/-- Environment of one orchestrator run: the repository rows for this
user, the external embed/store outcomes, and `datetime.now()`. -/
structure OrchEnv where
  embed : EmbedEnv
  allEntries : List DiaryEntry
  now : Nat

/-- Orchestrator state a run can touch: the user's sync watermark
(`SyncStateStore.get_last_sync`/`save_last_sync`,
`utils/sync_state.py:29-70`) and the user's vector collection. -/
structure OrchState where
  sync : Option Nat
  store : VectorStore

/-- Translation of `IndexingOrchestrator.load_incremental_entries`
(`orchestrator.py:92-109`, with `repository.py:87-125`): entries with
`created_at > last_sync` when a watermark exists, else all entries. -/
def load_incremental_entries (env : OrchEnv) (sync : Option Nat) :
    List DiaryEntry :=
  match sync with
  | some t => env.allEntries.filter fun e => t < e.created_at
  | Option.none => env.allEntries

/-- Translation of `IndexingOrchestrator._compute_latest_timestamp`
(`orchestrator.py:77-90`): `max(created_at)` of the entries, `now`
when there are none. -/
def compute_latest_timestamp (env : OrchEnv) (entries : List DiaryEntry) :
    Nat :=
  match entries with
  | [] => env.now
  | e :: es => es.foldl (fun m x => max m x.created_at) e.created_at

/-- Translation of `IndexingOrchestrator.run_incremental_indexing`
(`orchestrator.py:206-244`): the watermark is saved only when
`embed_and_store` reports success. -/
def run_incremental_indexing (cfg : OrchConfig) (env : OrchEnv)
    (st : OrchState) : Bool × OrchState :=
  let entries := load_incremental_entries env st.sync
  if entries.isEmpty then (true, st)
  else
    let chunks := process_entries cfg.splitter entries
    if chunks.isEmpty then (false, st)
    else
      let r := IndexingOrchestrator.embed_and_store cfg env.embed st.store chunks
      if r.1 then (true, ⟨some (compute_latest_timestamp env entries), r.2⟩)
      else (false, ⟨st.sync, r.2⟩)

/-- Translation of `DiaryEmbeddingAndStorage.clear_collection`
(`embedding_and_storing.py:355-378`): delete every stored id; the pure
translation cannot hit the `except` branch. -/
def clear_collection (store : VectorStore) : Bool × VectorStore :=
  (true, store.filter fun _ => false)

/-- Translation of `IndexingOrchestrator.run_full_reindexing`
(`orchestrator.py:246-285`): clear the collection (result unchecked),
reload all entries, re-embed; the watermark is saved (to `now`) only
when `embed_and_store` succeeds; a run that finds no entries returns
`True` without touching the watermark. -/
def run_full_reindexing (cfg : OrchConfig) (env : OrchEnv) (st : OrchState) :
    Bool × OrchState :=
  let store0 := (clear_collection st.store).2
  let entries := env.allEntries
  if entries.isEmpty then (true, ⟨st.sync, store0⟩)
  else
    let chunks := process_entries cfg.splitter entries
    if chunks.isEmpty then (false, ⟨st.sync, store0⟩)
    else
      let r := IndexingOrchestrator.embed_and_store cfg env.embed store0 chunks
      if r.1 then (true, ⟨some env.now, r.2⟩)
      else (false, ⟨st.sync, r.2⟩)

/-- A concrete diary entry for the witnesses. -/
def entryW : DiaryEntry := ⟨1, 1, "2025-01-01", "hi", "", 5⟩

/-- Environment with one entry and a failing embed/store backend. -/
def envFailW : OrchEnv := ⟨⟨fun _ => false⟩, [entryW], 7⟩

/-- Initial orchestrator state with a previous watermark. -/
def stW : OrchState := ⟨some 3, []⟩

/-- Environment with an empty repository and a healthy backend. -/
def envNoEntriesW : OrchEnv := ⟨⟨fun _ => true⟩, [], 5⟩

/-- Concrete chunks and a backend that fails exactly on the batch
containing `"a"`. -/
def chunkA : DiaryChunk := ⟨1, 1, "1_0", "a", []⟩

/-- Second concrete chunk. -/
def chunkB : DiaryChunk := ⟨1, 1, "1_1", "b", []⟩

/-- Backend that succeeds only on batches containing page `"b"`. -/
def envC7 : EmbedEnv := ⟨fun docs => docs.any (fun d => d.page_content = "b")⟩

/-- Orchestrator config with batch size 1. -/
def cfgC7 : OrchConfig := ⟨1, 800, 100⟩

/-! Retrieval (`Retrieval_And_Generator.py`) and the deletion path
(`embedding_and_storing.py:314-353`, `auto_sync.py:175-192`). -/
/-- The conjunction-of-exact-matches test of
`delete_documents_by_metadata` (`embedding_and_storing.py:332-337`):
every criterion key must hold an equal value in the document metadata
(`metadata.get(key)` is `None` when the key is absent). -/
def matchesCriteria (metadata : PyDict) (criteria : PyDict) : Bool :=
  criteria.all fun kv => MValue.beq ((dictGet metadata kv.1).getD .none) kv.2

/-- Abstract similarity backend: `search q k docs` returns the at most
`k` stored documents most similar to `q`; `sub` records that results
always come from the collection; `raises` tells whether the backend
call raises. -/
structure RetrievalEnv where
  search : String → Nat → List Document → List Document
  sub : ∀ q k docs, ∀ d ∈ search q k docs, d ∈ docs
  raises : Bool

/-- Translation of `DiaryRAGSystem.retrieve_relevant_entries`
(`Retrieval_And_Generator.py:316-358`): a missing vector store returns
`[]` at once; `k = k or min(self.max_retrieval_docs, 3)`; any raised
exception is caught and `[]` returned; otherwise `similarity_search`
runs with the optional metadata filter. -/
def retrieve_relevant_entries (env : RetrievalEnv) (max_retrieval_docs : Nat)
    (vector_store : Option (List Document)) (query : String)
    (filters : Option PyDict) (k : Option Nat) : List Document :=
  match vector_store with
  | Option.none => []
  | some docs =>
    if env.raises then []
    else
      let kEff := match k with
        | some n => if n = 0 then min max_retrieval_docs 3 else n
        | Option.none => min max_retrieval_docs 3
      match filters with
      | some f =>
          env.search query kEff (docs.filter fun d => matchesCriteria d.metadata f)
      | Option.none => env.search query kEff docs

/-- One stored record as `collection.get(include=['metadatas'])`
exposes it: its id and its metadata. -/
structure StoredDoc where
  id : String
  metadata : PyDict

/-- Translation of `DiaryEmbeddingAndStorage.delete_documents_by_metadata`
(`embedding_and_storing.py:314-353`): collect the ids of every stored
document whose metadata matches all criteria, delete them when there
are any, and report success either way.  Result: (success flag, the
collection afterwards, how many ids were deleted). -/
def delete_documents_by_metadata (col : List StoredDoc) (criteria : PyDict) :
    Bool × List StoredDoc × Nat :=
  if ((col.filter fun d => matchesCriteria d.metadata criteria).map
      StoredDoc.id).isEmpty then
    (true, col, 0)
  else
    (true,
     col.filter fun d =>
       !(((col.filter fun e => matchesCriteria e.metadata criteria).map
          StoredDoc.id).contains d.id),
     ((col.filter fun d => matchesCriteria d.metadata criteria).map
       StoredDoc.id).length)

/-- The entry-deletion criteria used by `auto_remove_deleted_entries`
(`auto_sync.py:189-191`): `{"entry_id": str(entry_id)}`. -/
def entryDeletionCriteria (entry_id : String) : PyDict :=
  [("entry_id", .str entry_id)]

/-! The content preprocessor, `dataloading.py:377-440`. -/
/-- Python `' '.join(tokens)` on character lists. -/
def joinSpace : List (List Char) → List Char
  | [] => []
  | [t] => t
  | t :: ts => t ++ ' ' :: joinSpace ts

/-- The collapse `' '.join(content.split())`: the whitespace-collapse step of
`preprocess_content` (`dataloading.py:419-420`). -/
def collapseWhitespace (l : List Char) : List Char :=
  joinSpace (pyTokens l.length l)

/-- Python `re.sub(r'\n+', '\n', ...)`: collapse every run of newlines to a
single newline; the flag records whether the previous character was a
newline. -/
def collapseLF : Bool → List Char → List Char
  | _, [] => []
  | prev, c :: rest =>
    if c = '\n' then
      if prev then collapseLF true rest
      else '\n' :: collapseLF true rest
    else c :: collapseLF false rest

/-- The line-break-normalization step of `preprocess_content`
(`dataloading.py:423-426`):
`content.replace('\r\n','\n').replace('\r','\n')` then collapse newline
runs. -/
def normalize_line_breaks_step (l : List Char) : List Char :=
  collapseLF false
    (replaceAll ['\r'] ['\n']
      (replaceAll ['\r', '\n'] ['\n'] l.length l).length
      (replaceAll ['\r', '\n'] ['\n'] l.length l))

/-- The `DiaryContentPreprocessor` options (`dataloading.py:382-401`;
constructor defaults `True/True/10/None`). -/
structure PreprocessorConfig where
  remove_extra_whitespace : Bool := true
  normalize_line_breaks : Bool := true
  min_content_length : Nat := 10
  max_content_length : Option Nat := Option.none

/-- The preprocessor the indexing pipeline builds
(`pipeline.py:81-86`). -/
def pipelinePreprocessor : PreprocessorConfig :=
  ⟨true, true, 3, some 10000⟩

/-- Translation of `DiaryContentPreprocessor.preprocess_content`
(`dataloading.py:403-440`): optional whitespace collapse, optional
line-break normalization, strip, minimum-length filter (returning the
empty string), optional truncation (`if self.max_content_length and
len(...) > self.max_content_length`). -/
def preprocess_content (cfg : PreprocessorConfig) (content : String) :
    String :=
  if content = "" then ""
  else
    let p1 := if cfg.remove_extra_whitespace then collapseWhitespace content.data
      else content.data
    let p2 := if cfg.normalize_line_breaks then normalize_line_breaks_step p1
      else p1
    let p3 := stripChars p2
    if p3.length < cfg.min_content_length then ""
    else
      match cfg.max_content_length with
      | some m =>
          if m ≠ 0 ∧ p3.length > m then String.mk (p3.take m)
          else String.mk p3
      | Option.none => String.mk p3

/-- Two space characters next to each other somewhere in the list. -/
def hasAdjacentSpaces : List Char → Bool
  | a :: b :: rest => (a = ' ' && b = ' ') || hasAdjacentSpaces (b :: rest)
  | _ => false

/-! Basic lemmas about the dict model. -/
theorem dictInsert_map_fst_overwrite (d : PyDict) (k : String) (v : MValue) :
    (d.map (fun p => if p.1 = k then (k, v) else p)).map Prod.fst
      = d.map Prod.fst := by
  rw [List.map_map]
  apply List.map_congr_left
  intro p _
  by_cases h : p.1 = k <;> simp [h]

theorem dictInsert_keys_nodup {d : PyDict} {k : String} {v : MValue}
    (h : (d.map Prod.fst).Nodup) : ((dictInsert d k v).map Prod.fst).Nodup := by
  unfold dictInsert
  cases hk : d.any (fun p => p.1 = k) with
  | true => simpa [dictInsert_map_fst_overwrite d k v] using h
  | false =>
    simp only [Bool.false_eq_true, if_false]
    rw [List.map_append, List.nodup_append]
    refine ⟨h, by simp, ?_⟩
    intro a ha hb
    simp only [List.map_cons, List.map_nil, List.mem_singleton] at hb
    have hk' := List.any_eq_false.mp hk
    simp only [List.mem_map] at ha
    obtain ⟨p, hp, rfl⟩ := ha
    exact absurd (by exact_mod_cast hb) (by simpa using hk' p hp)

theorem dictInsert_values_prim {d : PyDict} {k : String} {v : MValue}
    (hd : ∀ p ∈ d, p.2.isPrimitive) (hv : v.isPrimitive) :
    ∀ p ∈ dictInsert d k v, p.2.isPrimitive := by
  intro p hp
  unfold dictInsert at hp
  cases hk : d.any (fun q => q.1 = k) with
  | true =>
    rw [hk, if_pos rfl] at hp
    simp only [List.mem_map] at hp
    obtain ⟨q, hq, hpq⟩ := hp
    by_cases hq1 : q.1 = k
    · simp only [hq1, if_true] at hpq; subst hpq; exact hv
    · simp only [hq1, if_false] at hpq; subst hpq; exact hd q hq
  | false =>
    rw [hk] at hp
    simp only [Bool.false_eq_true, if_false, List.mem_append,
      List.mem_singleton] at hp
    rcases hp with hp | hp
    · exact hd p hp
    · subst hp; exact hv

theorem isPrimitive_not_listSetOrDict {v : MValue} (h : v.isPrimitive) :
    v.isListSetOrDict = false := by
  cases v <;> simp_all [MValue.isPrimitive, MValue.isListSetOrDict]

theorem filterValuePairs_values_prim (k : String) (v : MValue) :
    ∀ p ∈ filterValuePairs k v, p.2.isPrimitive := by
  intro p hp
  cases v <;> simp only [filterValuePairs] at hp
  case str => simp only [List.mem_singleton] at hp; subst hp; rfl
  case int => simp only [List.mem_singleton] at hp; subst hp; rfl
  case float => simp only [List.mem_singleton] at hp; subst hp; rfl
  case bool => simp only [List.mem_singleton] at hp; subst hp; rfl
  case none => simp only [List.mem_singleton] at hp; subst hp; rfl
  case list l =>
    cases hl : l.isEmpty with
    | true => rw [hl, if_pos rfl] at hp; cases hp
    | false =>
      rw [hl] at hp
      simp only [Bool.false_eq_true, if_false, List.mem_cons,
        List.mem_singleton, List.not_mem_nil, or_false] at hp
      rcases hp with hp | hp <;> (subst hp; rfl)
  case dict => cases hp
  case pyset => simp only [List.mem_singleton] at hp; subst hp; rfl
  case other => simp only [List.mem_singleton] at hp; subst hp; rfl

theorem dictInsertAll_values_prim {d : PyDict} {ps : List (String × MValue)}
    (hd : ∀ p ∈ d, p.2.isPrimitive) (hps : ∀ p ∈ ps, p.2.isPrimitive) :
    ∀ p ∈ dictInsertAll d ps, p.2.isPrimitive := by
  induction ps generalizing d with
  | nil => exact hd
  | cons q qs ih =>
    refine ih (dictInsert_values_prim hd (hps q (List.mem_cons_self q qs))) ?_
    intro p hp
    exact hps p (List.mem_cons_of_mem q hp)

theorem dictInsertAll_keys_nodup {d : PyDict} {ps : List (String × MValue)}
    (hd : (d.map Prod.fst).Nodup) :
    ((dictInsertAll d ps).map Prod.fst).Nodup := by
  induction ps generalizing d with
  | nil => exact hd
  | cons q qs ih => exact ih (dictInsert_keys_nodup hd)

/-- Every value `_filter_metadata` stores is one of the ChromaDB
primitives (string / int / float / bool / null). -/
theorem filter_metadata_values_prim (m : PyDict) :
    ∀ p ∈ filter_metadata m, p.2.isPrimitive := by
  suffices h : ∀ (acc : PyDict), (∀ p ∈ acc, p.2.isPrimitive) →
      ∀ p ∈ m.foldl (fun acc p => dictInsertAll acc (filterValuePairs p.1 p.2)) acc,
        p.2.isPrimitive by
    exact h [] (by intro p hp; cases hp)
  induction m with
  | nil => intro acc hacc; exact hacc
  | cons q qs ih =>
    intro acc hacc
    simp only [List.foldl_cons]
    exact ih _ (dictInsertAll_values_prim hacc (filterValuePairs_values_prim q.1 q.2))

theorem filter_metadata_keys_nodup (m : PyDict) :
    ((filter_metadata m).map Prod.fst).Nodup := by
  suffices h : ∀ (acc : PyDict), (acc.map Prod.fst).Nodup →
      ((m.foldl (fun acc p => dictInsertAll acc (filterValuePairs p.1 p.2)) acc).map
        Prod.fst).Nodup by
    exact h [] (by simp)
  induction m with
  | nil => intro acc hacc; exact hacc
  | cons q qs ih =>
    intro acc hacc
    simp only [List.foldl_cons]
    exact ih _ (dictInsertAll_keys_nodup hacc)

theorem filterValuePairs_of_prim {v : MValue} (k : String) (h : v.isPrimitive) :
    filterValuePairs k v = [(k, v)] := by
  cases v <;> first | rfl | cases h

theorem dictInsert_fresh {d : PyDict} {k : String} (v : MValue)
    (h : (d.any (fun p => p.1 = k)) = false) :
    dictInsert d k v = d ++ [(k, v)] := by
  unfold dictInsert
  rw [h]
  simp

theorem foldl_dictInsert_fresh (d : List (String × MValue)) :
    ∀ (acc : PyDict),
    (∀ p ∈ d, (acc.any (fun q => q.1 = p.1)) = false) →
    (d.map Prod.fst).Nodup →
    d.foldl (fun a p => dictInsert a p.1 p.2) acc = acc ++ d := by
  induction d with
  | nil => intro acc _ _; simp
  | cons p t ih =>
    intro acc hfresh hnodup
    simp only [List.foldl_cons]
    rw [dictInsert_fresh p.2 (hfresh p (List.mem_cons_self p t))]
    rw [List.map_cons, List.nodup_cons] at hnodup
    rw [ih (acc ++ [p]) ?_ hnodup.2]
    · simp
    · intro q hq
      rw [List.any_append]
      have h1 := hfresh q (List.mem_cons_of_mem p hq)
      rw [h1]
      simp only [Bool.false_or, List.any_cons, List.any_nil, Bool.or_false]
      simp only [decide_eq_false_iff_not]
      intro heq
      exact hnodup.1 (by rw [heq]; exact List.mem_map_of_mem Prod.fst hq)

theorem string_append_right_inj {s t u : String} (h : s ++ t = s ++ u) :
    t = u := by
  have hd : (s ++ t).data = (s ++ u).data := congrArg String.data h
  rw [String.data_append, String.data_append] at hd
  exact String.ext (List.append_cancel_left hd)

theorem filter_metadata_step_of_prim (d : List (String × MValue)) :
    ∀ (acc : PyDict), (∀ p ∈ d, p.2.isPrimitive) →
    d.foldl (fun acc p => dictInsertAll acc (filterValuePairs p.1 p.2)) acc
      = d.foldl (fun a p => dictInsert a p.1 p.2) acc := by
  induction d with
  | nil => intro acc _; rfl
  | cons p t ih =>
    intro acc hprim
    simp only [List.foldl_cons]
    rw [filterValuePairs_of_prim p.1 (hprim p (List.mem_cons_self p t))]
    have : dictInsertAll acc [(p.1, p.2)] = dictInsert acc p.1 p.2 := rfl
    rw [this]
    exact ih _ (fun q hq => hprim q (List.mem_cons_of_mem p hq))

/-- Coercing a dict whose values are already all primitive (and whose
keys are distinct) returns it unchanged. -/
theorem filter_metadata_of_prim {d : PyDict}
    (hprim : ∀ p ∈ d, p.2.isPrimitive)
    (hnodup : (d.map Prod.fst).Nodup) : filter_metadata d = d := by
  unfold filter_metadata
  rw [filter_metadata_step_of_prim d [] hprim]
  have := foldl_dictInsert_fresh d [] (by intro p _; rfl) hnodup
  simpa using this

/-- C3.  Metadata coercion is idempotent, and its output never contains
a list, set, or mapping value: `_filter_metadata` applied to its own
output is the identity, because every stored value is a ChromaDB
primitive and the stored keys are distinct. -/
theorem coerce_idempotent (m : PyDict) :
    filter_metadata (filter_metadata m) = filter_metadata m
    ∧ ∀ p ∈ filter_metadata m, p.2.isListSetOrDict = false := by
  constructor
  · exact filter_metadata_of_prim (filter_metadata_values_prim m)
      (filter_metadata_keys_nodup m)
  · intro p hp
    exact isPrimitive_not_listSetOrDict (filter_metadata_values_prim m p hp)

/-- C2.  The coercion rules of `_filter_metadata`, stated on a
single-pair metadata dict: strings, ints, floats, bools and `None` pass
through unchanged under the same key; a non-empty list becomes exactly
the two fields `key_list` (elements stringified, joined with `", "`)
and `key_count` (the length); an empty list and a dict/mapping emit
nothing; a set or any other value is replaced by its `str()`
representation — and every value of any coerced dict is one of
string / int / float / bool / null. -/
theorem coerce_rules (k : String) :
    (∀ s, filter_metadata [(k, .str s)] = [(k, .str s)])
    ∧ (∀ n : Int, filter_metadata [(k, .int n)] = [(k, .int n)])
    ∧ (∀ f, filter_metadata [(k, .float f)] = [(k, .float f)])
    ∧ (∀ b, filter_metadata [(k, .bool b)] = [(k, .bool b)])
    ∧ (filter_metadata [(k, .none)] = [(k, .none)])
    ∧ (∀ l, l ≠ [] → filter_metadata [(k, .list l)]
        = [(k ++ "_list", .str (String.intercalate ", " (l.map pyStr))),
           (k ++ "_count", .int l.length)])
    ∧ (filter_metadata [(k, .list [])] = [])
    ∧ (∀ d, filter_metadata [(k, .dict d)] = [])
    ∧ (∀ l, filter_metadata [(k, .pyset l)] = [(k, .str (pyStr (.pyset l)))])
    ∧ (∀ s, filter_metadata [(k, .other s)] = [(k, .str s)])
    ∧ (∀ m : PyDict, ∀ p ∈ filter_metadata m, p.2.isPrimitive) := by
  refine ⟨fun s => rfl, fun n => rfl, fun f => rfl, fun b => rfl, rfl,
    ?_, rfl, fun d => rfl, fun l => rfl, fun s => rfl,
    filter_metadata_values_prim⟩
  intro l hl
  have hne : l.isEmpty = false := by
    cases l with
    | nil => exact absurd rfl hl
    | cons a t => rfl
  have hfv : filterValuePairs k (.list l)
      = [(k ++ "_list", .str (String.intercalate ", " (l.map pyStr))),
         (k ++ "_count", .int l.length)] := by
    simp only [filterValuePairs, hne, Bool.false_eq_true, if_false]
  show dictInsertAll [] (filterValuePairs k (.list l)) = _
  rw [hfv]
  show dictInsert (dictInsert [] (k ++ "_list")
      (.str (String.intercalate ", " (l.map pyStr)))) (k ++ "_count")
      (.int l.length) = _
  have h1 : dictInsert ([] : PyDict) (k ++ "_list")
      (.str (String.intercalate ", " (l.map pyStr)))
      = [(k ++ "_list", .str (String.intercalate ", " (l.map pyStr)))] := rfl
  rw [h1, dictInsert_fresh]
  · rfl
  · rw [List.any_cons, List.any_nil, Bool.or_false]
    simp only [decide_eq_false_iff_not]
    intro h
    exact absurd (string_append_right_inj h) (by decide)

/-- Witness for C2 at a concrete input: the `tags` list becomes
`tags_list`/`tags_count`. -/
theorem coerce_rules_witness :
    filter_metadata [("tags", .list [.str "fun", .str "family"])]
      = [("tags_list", .str "fun, family"), ("tags_count", .int 2)] := by
  have h := (coerce_rules "tags").2.2.2.2.2.1 [.str "fun", .str "family"]
    (by simp)
  simpa using h

/-! Lookup lemmas for the dict model. -/
theorem dictGet_append_of_absent {d : PyDict} {k : String}
    (h : d.any (fun p => p.1 = k) = false) (rest : PyDict) :
    dictGet (d ++ rest) k = dictGet rest k := by
  unfold dictGet
  rw [List.find?_append]
  rw [List.find?_eq_none.mpr]
  · rfl
  · intro p hp
    have := List.any_eq_false.mp h p hp
    simpa using this

theorem find?_overwrite_of_any {k : String} {v : MValue} :
    ∀ {d : PyDict}, d.any (fun p => p.1 = k) = true →
    (d.map (fun p => if p.1 = k then (k, v) else p)).find?
      (fun p => p.1 = k) = some (k, v) := by
  intro d
  induction d with
  | nil => intro h; cases h
  | cons p t ih =>
    intro h
    simp only [List.map_cons]
    by_cases hp : p.1 = k
    · rw [if_pos hp]
      rw [List.find?_cons_of_pos]
      simp
    · rw [if_neg hp]
      rw [List.find?_cons_of_neg]
      · apply ih
        simp only [List.any_cons] at h
        simpa [hp] using h
      · simpa using hp

theorem dictGet_dictInsert_self (d : PyDict) (k : String) (v : MValue) :
    dictGet (dictInsert d k v) k = some v := by
  unfold dictInsert
  cases hk : d.any (fun p => p.1 = k) with
  | true =>
    simp only [if_true]
    unfold dictGet
    rw [find?_overwrite_of_any hk]
    rfl
  | false =>
    simp only [Bool.false_eq_true, if_false]
    rw [dictGet_append_of_absent hk]
    unfold dictGet
    rw [List.find?_cons_of_pos]
    · rfl
    · simp

theorem find?_overwrite_ne {k k' : String} {v : MValue} (h : k ≠ k') :
    ∀ (d : PyDict),
    (d.map (fun p => if p.1 = k' then (k', v) else p)).find?
      (fun p => p.1 = k) = d.find? (fun p => p.1 = k) := by
  intro d
  induction d with
  | nil => rfl
  | cons p t ih =>
    simp only [List.map_cons]
    by_cases hp : p.1 = k'
    · rw [if_pos hp]
      rw [List.find?_cons_of_neg, List.find?_cons_of_neg]
      · exact ih
      · rw [hp]; simpa using Ne.symm h
      · simpa using Ne.symm h
    · rw [if_neg hp]
      by_cases hpk : p.1 = k
      · rw [List.find?_cons_of_pos, List.find?_cons_of_pos] <;> simpa
      · rw [List.find?_cons_of_neg, List.find?_cons_of_neg]
        · exact ih
        · simpa using hpk
        · simpa using hpk

theorem dictGet_dictInsert_ne (d : PyDict) {k k' : String} (v : MValue)
    (h : k ≠ k') : dictGet (dictInsert d k' v) k = dictGet d k := by
  unfold dictInsert
  cases hk : d.any (fun p => p.1 = k') with
  | true =>
    simp only [if_true]
    unfold dictGet
    congr 1
    exact find?_overwrite_ne h d
  | false =>
    simp only [Bool.false_eq_true, if_false]
    unfold dictGet
    rw [List.find?_append]
    have : ([(k', v)].find? (fun p => p.1 = k)) = Option.none := by
      rw [List.find?_cons_of_neg]
      · rfl
      · simpa using fun heq => h heq.symm
    cases hfind : d.find? (fun p => p.1 = k) <;> simp [hfind, this]

theorem splitTextWindows_ne_nil {cs st fuel : Nat} {l : List Char}
    (hf : 1 ≤ fuel) (hl : l ≠ []) : splitTextWindows cs st fuel l ≠ [] := by
  cases fuel with
  | zero => omega
  | succ f =>
    cases l with
    | nil => exact absurd rfl hl
    | cons c rest => simp [splitTextWindows]

theorem data_ne_nil_of_ne_empty {text : String} (h : text ≠ "") :
    text.data ≠ [] := fun hd => h (String.ext (hd.trans rfl))

theorem split_text_ne_nil (cfg : SplitterConfig) {text : String}
    (h : text ≠ "") : split_text cfg text ≠ [] := by
  apply splitTextWindows_ne_nil
  · show 1 ≤ text.data.length
    exact List.length_pos.mpr (data_ne_nil_of_ne_empty h)
  · exact data_ne_nil_of_ne_empty h

/-- C4.  For every input document the chunker emits at least one chunk,
and when the estimated token count `len(text) // 4` is at most 250 it
emits exactly one chunk covering the whole text, whose metadata has
`chunk_index = 0` and `total_chunks = 1`. -/
theorem chunker_counts (cfg : SplitterConfig) (doc : Document) :
    1 ≤ (split_documents cfg [doc]).length
    ∧ (estimate_tokens doc.page_content ≤ 250 →
        ∃ m, split_documents cfg [doc] = [⟨doc.page_content, m⟩]
          ∧ dictGet m "chunk_index" = some (.int 0)
          ∧ dictGet m "total_chunks" = some (.int 1)) := by
  have hout : split_documents cfg [doc]
      = (if ¬ should_split_entry doc.page_content then
          [⟨doc.page_content, create_chunk_metadata doc 0 1⟩]
        else
          (split_text cfg doc.page_content).enum.map fun p =>
            ⟨p.2, dictInsert
              (create_chunk_metadata doc p.1 (split_text cfg doc.page_content).length)
              "chunk_position"
              (.str (chunkPosition p.1 (split_text cfg doc.page_content).length))⟩) := by
    simp [split_documents]
  cases hsplit : should_split_entry doc.page_content with
  | false =>
    rw [hout, if_pos (by simp [hsplit])]
    refine ⟨by simp, fun _ => ⟨create_chunk_metadata doc 0 1, rfl, ?_, ?_⟩⟩
    · simp only [create_chunk_metadata, dictInsertAll, List.foldl_cons,
        List.foldl_nil]
      rw [dictGet_dictInsert_ne _ _ (by decide),
        dictGet_dictInsert_ne _ _ (by decide),
        dictGet_dictInsert_ne _ _ (by decide),
        dictGet_dictInsert_self]
      norm_num
    · simp only [create_chunk_metadata, dictInsertAll, List.foldl_cons,
        List.foldl_nil]
      rw [dictGet_dictInsert_ne _ _ (by decide),
        dictGet_dictInsert_ne _ _ (by decide),
        dictGet_dictInsert_self]
      norm_num
  | true =>
    have hgt : 250 < estimate_tokens doc.page_content := by
      have := of_decide_eq_true hsplit
      exact this
    constructor
    · rw [hout, if_neg (by simp [hsplit])]
      rw [List.length_map, List.enum_length]
      have hne : doc.page_content ≠ "" := by
        intro h0
        rw [h0] at hgt
        simp [estimate_tokens] at hgt
      have := split_text_ne_nil cfg hne
      exact List.length_pos.mpr this
    · intro hle
      omega

/-- Witness for C4 at a concrete short document. -/
theorem chunker_counts_witness :
    1 ≤ (split_documents {} [⟨"hello", []⟩]).length
    ∧ ∃ m, split_documents {} [⟨"hello", []⟩] = [⟨"hello", m⟩]
        ∧ dictGet m "chunk_index" = some (.int 0)
        ∧ dictGet m "total_chunks" = some (.int 1) := by
  have h := chunker_counts {} ⟨"hello", []⟩
  exact ⟨h.1, h.2 (by decide)⟩

theorem extract_tags_eq_dedup (content : String) :
    extract_tags_from_content content
      = ((findTags content.data.length content.data).map pyLower).dedup := by
  unfold extract_tags_from_content
  by_cases h : content = ""
  · rw [if_pos h, h]
    rfl
  · rw [if_neg h]

/-- C5 counterexample: with no hashtags in the content and author tags
`"Work"`, the tag collection built by `DiaryDataLoader.load` is
`["Work"]` — the author tag is not case-folded, so the result is not
the case-folded union the claim describes, and it is not a lowercase
set. -/
theorem tags_not_casefolded :
    allTags "" "Work" = ["Work"]
    ∧ (allTags "" "Work").map pyLower ≠ allTags "" "Work" := by
  constructor
  · decide
  · decide

theorem list_toFinset_dedup {α : Type} [DecidableEq α] (l : List α) :
    l.dedup.toFinset = l.toFinset := by
  apply Finset.ext
  intro a
  simp [List.mem_toFinset, List.mem_dedup]

/-- C5 (amended).  The tag collection built by `DiaryDataLoader.load`
is the deduplicated union of the case-folded `#hashtag` tokens matched
in the content and the comma-split, whitespace-trimmed author tags kept
in their original case (not case-folded); the result is always
deduplicated, and it is empty (never null) when the content has no
hashtags and the author tags are empty. -/
theorem tags_deduped_union (content db_tags : String) :
    (allTags content db_tags).toFinset
      = ((findTags content.data.length content.data).map pyLower).toFinset
        ∪ (dbTagList db_tags).toFinset
    ∧ (allTags content db_tags).Nodup
    ∧ (findTags content.data.length content.data = [] → db_tags = "" →
        allTags content db_tags = []) := by
  refine ⟨?_, List.nodup_dedup _, ?_⟩
  · unfold allTags
    rw [list_toFinset_dedup, List.toFinset_append, extract_tags_eq_dedup,
      list_toFinset_dedup]
  · intro hft hdb
    unfold allTags
    rw [extract_tags_eq_dedup, hft, hdb]
    rfl

/-- Witness for C5 (amended) on hashtag-free content and empty author
tags: the tag set is empty. -/
theorem tags_deduped_union_witness :
    findTags ("just words".data.length) ("just words".data) = []
    ∧ allTags "just words" "" = [] := by
  refine ⟨by decide, ?_⟩
  exact (tags_deduped_union "just words" "").2.2 (by decide) rfl

theorem split_documents_singleton_ne_nil (cfg : SplitterConfig)
    (doc : Document) : split_documents cfg [doc] ≠ [] := by
  unfold split_documents
  simp only [List.flatMap_cons, List.flatMap_nil, List.append_nil]
  cases hsplit : should_split_entry doc.page_content with
  | false =>
    rw [if_pos (by simp [hsplit])]
    simp
  | true =>
    rw [if_neg (by simp [hsplit])]
    have hne : doc.page_content ≠ "" := by
      intro h0
      have hgt := of_decide_eq_true hsplit
      rw [h0] at hgt
      simp [estimate_tokens] at hgt
    have h1 := split_text_ne_nil cfg hne
    intro hmap
    have hlen := congrArg List.length hmap
    simp only [List.length_map, List.enum_length, List.length_nil] at hlen
    exact h1 (List.length_eq_zero.mp hlen)

theorem split_diary_entry_eq_split_documents (cfg : SplitterConfig)
    (e : DiaryEntry) :
    ∃ doc, split_diary_entry cfg e = split_documents cfg [doc] := ⟨_, rfl⟩

theorem process_entries_ne_nil (cfg : SplitterConfig)
    {entries : List DiaryEntry} (h : entries ≠ []) :
    process_entries cfg entries ≠ [] := by
  cases entries with
  | nil => exact absurd rfl h
  | cons e es =>
    unfold process_entries
    rw [if_neg (by simp)]
    simp only [List.flatMap_cons]
    intro happ
    rcases List.append_eq_nil.mp happ with ⟨h1, _⟩
    have hlen := congrArg List.length h1
    simp only [List.length_map, List.enum_length, List.length_nil] at hlen
    obtain ⟨doc, hdoc⟩ := split_diary_entry_eq_split_documents cfg e
    exact split_documents_singleton_ne_nil cfg doc
      (hdoc ▸ List.length_eq_zero.mp hlen)

/-- C1.  Incremental watermark safety: when the embed-and-store step of
an incremental run fails for the entries being processed, the run does
not advance the user's sync watermark — `SyncState` after the run
equals its value before, so the same entries are loaded again on the
next run. -/
theorem incremental_watermark_safety (cfg : OrchConfig) (env : OrchEnv)
    (st : OrchState)
    (h : (IndexingOrchestrator.embed_and_store cfg env.embed st.store
      (process_entries cfg.splitter
        (load_incremental_entries env st.sync))).1 = false) :
    (run_incremental_indexing cfg env st).2.sync = st.sync := by
  unfold run_incremental_indexing
  cases hent : (load_incremental_entries env st.sync).isEmpty with
  | true =>
    exfalso
    have hpe : process_entries cfg.splitter
        (load_incremental_entries env st.sync) = [] := by
      unfold process_entries
      rw [hent]
      simp
    rw [hpe] at h
    unfold IndexingOrchestrator.embed_and_store at h
    simp at h
  | false =>
    simp only [hent, Bool.false_eq_true, if_false]
    cases hch : (process_entries cfg.splitter
        (load_incremental_entries env st.sync)).isEmpty with
    | true => simp [hch]
    | false =>
      simp only [hch, Bool.false_eq_true, if_false, h]

/-- Witness for C1: one new entry, embedding fails, the watermark stays
`some 3`. -/
theorem incremental_watermark_safety_witness :
    (IndexingOrchestrator.embed_and_store {} envFailW.embed stW.store
      (process_entries ({} : OrchConfig).splitter
        (load_incremental_entries envFailW stW.sync))).1 = false
    ∧ (run_incremental_indexing {} envFailW stW).2.sync = some 3 := by
  constructor
  · decide
  · exact incremental_watermark_safety {} envFailW stW (by decide)

/-- C6 counterexample: a full reindex over zero entries completes with
success but leaves the watermark untouched (`none`) instead of setting
it to the current time, contradicting the claim. -/
theorem full_reindex_zero_entries_keeps_sync :
    run_full_reindexing {} envNoEntriesW ⟨Option.none, []⟩
      = (true, ⟨Option.none, []⟩)
    ∧ (run_full_reindexing {} envNoEntriesW ⟨Option.none, []⟩).2.sync
      ≠ some envNoEntriesW.now := by
  constructor
  · rfl
  · decide

/-- C6 (amended).  A completed full-reindex run updates the user's
`last_sync_timestamp` to the current time exactly when it found at
least one entry and its embed-and-store step succeeded; a run that
finds zero entries reports success but leaves SyncState unchanged, and
a run whose embed-and-store step fails also leaves SyncState
unchanged. -/
theorem full_reindex_sync_update (cfg : OrchConfig) (env : OrchEnv)
    (st : OrchState) :
    (run_full_reindexing cfg env st).2.sync
      = (if env.allEntries.isEmpty then st.sync
         else if (IndexingOrchestrator.embed_and_store cfg env.embed
             (clear_collection st.store).2
             (process_entries cfg.splitter env.allEntries)).1 then some env.now
         else st.sync)
    ∧ (run_full_reindexing cfg env st).1
      = (env.allEntries.isEmpty
         || (IndexingOrchestrator.embed_and_store cfg env.embed
             (clear_collection st.store).2
             (process_entries cfg.splitter env.allEntries)).1) := by
  unfold run_full_reindexing
  cases hent : env.allEntries.isEmpty with
  | true => simp [hent]
  | false =>
    have hneq : env.allEntries ≠ [] := by
      intro hnil
      rw [hnil] at hent
      cases hent
    have hch : (process_entries cfg.splitter env.allEntries).isEmpty = false := by
      cases hpe : (process_entries cfg.splitter env.allEntries) with
      | nil => exact absurd hpe (process_entries_ne_nil cfg.splitter hneq)
      | cons a t => rfl
    simp only [hent, hch, Bool.false_eq_true, if_false, Bool.false_or]
    cases hr : (IndexingOrchestrator.embed_and_store cfg env.embed
        (clear_collection st.store).2
        (process_entries cfg.splitter env.allEntries)).1 <;>
      simp [hr]

theorem toBatches_mem_ne_nil {α : Type} {batchSize : Nat}
    (hbs : 0 < batchSize) :
    ∀ (fuel : Nat) (l : List α), ∀ b ∈ toBatches batchSize fuel l, b ≠ [] := by
  intro fuel
  induction fuel with
  | zero => intro l b hb; cases hb
  | succ f ih =>
    intro l b hb
    cases l with
    | nil => cases hb
    | cons c cs =>
      simp only [toBatches, List.mem_cons] at hb
      rcases hb with hb | hb
      · subst hb
        cases batchSize with
        | zero => omega
        | succ n => simp
      · exact ih _ b hb

theorem orchEmbedLoop_eq (env : EmbedEnv) :
    ∀ (batches : List (List Document)) (store : VectorStore),
    (∀ b ∈ batches, b ≠ []) →
    orchEmbedLoop env batches store
      = (batches.all (fun b => env.addOk (b.map filterDoc)),
         store ++ (batches.takeWhile (fun b => env.addOk (b.map filterDoc))).flatMap
           (fun b => b.map filterDoc)) := by
  intro batches
  induction batches with
  | nil => intro store _; simp [orchEmbedLoop]
  | cons b bs ih =>
    intro store hne
    have hb : b ≠ [] := hne b (List.mem_cons_self b bs)
    have hbe : b.isEmpty = false := by
      cases b with
      | nil => exact absurd rfl hb
      | cons x xs => rfl
    unfold orchEmbedLoop embed_and_store_documents
    rw [hbe]
    simp only [Bool.false_eq_true, if_false]
    cases hok : env.addOk (b.map filterDoc) with
    | true =>
      simp only [if_true]
      rw [ih _ (fun q hq => hne q (List.mem_cons_of_mem b hq))]
      simp [List.all_cons, hok, List.takeWhile_cons, List.append_assoc]
    | false =>
      simp only [Bool.false_eq_true, if_false]
      simp [List.all_cons, hok, List.takeWhile_cons]

theorem batch_process_loop_eq (env : EmbedEnv) :
    ∀ (batches : List (List Document)) (store : VectorStore),
    (∀ b ∈ batches, b ≠ []) →
    batch_process_loop env batches store
      = (store ++ (batches.filter (fun b => env.addOk (b.map filterDoc))).flatMap
           (fun b => b.map filterDoc),
         ((batches.filter (fun b => env.addOk (b.map filterDoc))).map
           (fun b => b.length)).sum) := by
  intro batches
  induction batches with
  | nil => intro store _; simp [batch_process_loop]
  | cons b bs ih =>
    intro store hne
    have hb : b ≠ [] := hne b (List.mem_cons_self b bs)
    have hbe : b.isEmpty = false := by
      cases b with
      | nil => exact absurd rfl hb
      | cons x xs => rfl
    unfold batch_process_loop embed_and_store_documents
    rw [hbe]
    simp only [Bool.false_eq_true, if_false]
    cases hok : env.addOk (b.map filterDoc) with
    | true =>
      simp only [if_true]
      rw [ih _ (fun q hq => hne q (List.mem_cons_of_mem b hq))]
      simp [List.filter_cons, hok, List.append_assoc, List.length_map]
    | false =>
      simp only [Bool.false_eq_true, if_false]
      rw [ih _ (fun q hq => hne q (List.mem_cons_of_mem b hq))]
      simp [List.filter_cons, hok]

/-- C7 counterexample: in the orchestrator's embed-and-store phase a
failure in the first batch DOES abort the run — the second batch, which
would succeed on its own, is never attempted and nothing is stored; the
phase reports failure instead of continuing and accumulating. -/
theorem embed_phase_aborts_on_failed_batch :
    IndexingOrchestrator.embed_and_store cfgC7 envC7 [] [chunkA, chunkB]
      = (false, [])
    ∧ envC7.addOk [filterDoc ⟨chunkB.text, chunkB.metadata⟩] = true := by
  constructor
  · rfl
  · rfl

/-- C7 (amended).  Chunks are written in batches of the configured
batch size (whose default is 50).  In the orchestrator's
embed-and-store phase a failed batch aborts the run: exactly the
batches before the first failure are stored (with coerced metadata) and
the phase succeeds iff every batch succeeds.  The separate
`batch_process_documents` helper is the one that continues past failed
batches: it stores exactly the successful batches and accumulates the
count of their stored documents. -/
theorem embed_and_store_batching (cfg : OrchConfig) (env : EmbedEnv)
    (store : VectorStore) (chunks : List DiaryChunk)
    (docs : List Document) (n : Nat)
    (hcfg : 0 < cfg.batch_size) (hn : 0 < n) :
    (({} : OrchConfig).batch_size = 50)
    ∧ (IndexingOrchestrator.embed_and_store cfg env store chunks
        = ((toBatches cfg.batch_size
              (chunks.map fun c => (⟨c.text, c.metadata⟩ : Document)).length
              (chunks.map fun c => (⟨c.text, c.metadata⟩ : Document))).all
             (fun b => env.addOk (b.map filterDoc)),
           store ++ ((toBatches cfg.batch_size
              (chunks.map fun c => (⟨c.text, c.metadata⟩ : Document)).length
              (chunks.map fun c => (⟨c.text, c.metadata⟩ : Document))).takeWhile
             (fun b => env.addOk (b.map filterDoc))).flatMap
             (fun b => b.map filterDoc)))
    ∧ (batch_process_documents env store docs n
        = (store ++ ((toBatches n docs.length docs).filter
             (fun b => env.addOk (b.map filterDoc))).flatMap
             (fun b => b.map filterDoc),
           (((toBatches n docs.length docs).filter
             (fun b => env.addOk (b.map filterDoc))).map
             (fun b => b.length)).sum)) := by
  refine ⟨rfl, ?_, ?_⟩
  · unfold IndexingOrchestrator.embed_and_store
    cases hch : chunks with
    | nil => simp [toBatches, orchEmbedLoop]
    | cons c cs =>
      rw [if_neg (by simp)]
      exact orchEmbedLoop_eq env _ store
        (toBatches_mem_ne_nil hcfg _ _)
  · unfold batch_process_documents
    exact batch_process_loop_eq env _ store (toBatches_mem_ne_nil hn _ _)

/-- Witness for C7 (amended) at batch size 1 over two chunks with the
first batch failing: the phase stores only the (empty) successful
prefix and reports failure, while `batch_process_documents` stores the
successful batch and counts one document. -/
theorem embed_and_store_batching_witness :
    0 < cfgC7.batch_size ∧ 0 < 1
    ∧ (IndexingOrchestrator.embed_and_store cfgC7 envC7 [] [chunkA, chunkB]
        = ((toBatches cfgC7.batch_size
              ([chunkA, chunkB].map fun c => (⟨c.text, c.metadata⟩ : Document)).length
              ([chunkA, chunkB].map fun c => (⟨c.text, c.metadata⟩ : Document))).all
             (fun b => envC7.addOk (b.map filterDoc)),
           [] ++ ((toBatches cfgC7.batch_size
              ([chunkA, chunkB].map fun c => (⟨c.text, c.metadata⟩ : Document)).length
              ([chunkA, chunkB].map fun c => (⟨c.text, c.metadata⟩ : Document))).takeWhile
             (fun b => envC7.addOk (b.map filterDoc))).flatMap
             (fun b => b.map filterDoc))) := by
  have h := embed_and_store_batching cfgC7 envC7 [] [chunkA, chunkB] [] 1
    (by decide) (by decide)
  exact ⟨by decide, by decide, h.2.1⟩

/-- C8.  For every query (and filter and k), retrieval returns the
empty sequence — and, being a total function, cannot raise — when the
user's vector collection does not exist (`none`) or contains zero
documents. -/
theorem retrieve_empty_collection (env : RetrievalEnv)
    (max_retrieval_docs : Nat) (query : String) (filters : Option PyDict)
    (k : Option Nat) :
    retrieve_relevant_entries env max_retrieval_docs Option.none query
      filters k = []
    ∧ retrieve_relevant_entries env max_retrieval_docs (some []) query
      filters k = [] := by
  constructor
  · rfl
  · unfold retrieve_relevant_entries
    cases hr : env.raises with
    | true => simp [hr]
    | false =>
      simp only [hr, Bool.false_eq_true, if_false]
      cases filters with
      | none =>
        apply List.eq_nil_iff_forall_not_mem.mpr
        intro d hd
        exact absurd (env.sub _ _ _ d hd) (List.not_mem_nil d)
      | some f =>
        apply List.eq_nil_iff_forall_not_mem.mpr
        intro d hd
        have hmem := env.sub _ _ _ d hd
        simp at hmem

theorem delete_no_match_after (col : List StoredDoc) (criteria : PyDict) :
    ∀ d ∈ (delete_documents_by_metadata col criteria).2.1,
      matchesCriteria d.metadata criteria = false := by
  intro d hd
  unfold delete_documents_by_metadata at hd
  cases hids : ((col.filter fun d => matchesCriteria d.metadata criteria).map
      StoredDoc.id).isEmpty with
  | true =>
    rw [hids, if_pos rfl] at hd
    have h1 : (col.filter fun d => matchesCriteria d.metadata criteria) = [] := by
      cases hmap : ((col.filter fun d => matchesCriteria d.metadata criteria).map
          StoredDoc.id) with
      | nil =>
        cases hf : (col.filter fun d => matchesCriteria d.metadata criteria) with
        | nil => rfl
        | cons a t => rw [hf] at hmap; cases hmap
      | cons a t => rw [hmap] at hids; cases hids
    have := List.filter_eq_nil_iff.mp h1 d hd
    simpa using this
  | false =>
    rw [hids] at hd
    simp only [Bool.false_eq_true, if_false, List.mem_filter] at hd
    obtain ⟨hdc, hnc⟩ := hd
    cases hm : matchesCriteria d.metadata criteria with
    | false => rfl
    | true =>
      exfalso
      have hdm : d ∈ col.filter fun e => matchesCriteria e.metadata criteria :=
        List.mem_filter.mpr ⟨hdc, hm⟩
      have hmem : d.id ∈ (col.filter fun e =>
          matchesCriteria e.metadata criteria).map StoredDoc.id :=
        List.mem_map_of_mem _ hdm
      rw [Bool.not_eq_true'] at hnc
      have := List.elem_iff.mpr hmem
      rw [show ((col.filter fun e => matchesCriteria e.metadata criteria).map
        StoredDoc.id).contains d.id
          = ((col.filter fun e => matchesCriteria e.metadata criteria).map
            StoredDoc.id).elem d.id from rfl] at hnc
      rw [this] at hnc
      cases hnc

/-- C9.  The deletion path is idempotent: deleting an entry's chunks by
`entry_id` twice reports success both times, the second call deletes
zero additional chunks, and the collection is unchanged by the second
call — deleting an already-absent entry's chunks is a no-op success. -/
theorem deletion_idempotent (col : List StoredDoc) (entry_id : String) :
    (delete_documents_by_metadata col (entryDeletionCriteria entry_id)).1 = true
    ∧ (delete_documents_by_metadata
        (delete_documents_by_metadata col (entryDeletionCriteria entry_id)).2.1
        (entryDeletionCriteria entry_id)).1 = true
    ∧ (delete_documents_by_metadata
        (delete_documents_by_metadata col (entryDeletionCriteria entry_id)).2.1
        (entryDeletionCriteria entry_id)).2.2 = 0
    ∧ (delete_documents_by_metadata
        (delete_documents_by_metadata col (entryDeletionCriteria entry_id)).2.1
        (entryDeletionCriteria entry_id)).2.1
      = (delete_documents_by_metadata col (entryDeletionCriteria entry_id)).2.1 := by
  have hfirst : ∀ (c : List StoredDoc) (crit : PyDict),
      (delete_documents_by_metadata c crit).1 = true := by
    intro c crit
    unfold delete_documents_by_metadata
    split <;> rfl
  have hno := delete_no_match_after col (entryDeletionCriteria entry_id)
  have hfilter : ((delete_documents_by_metadata col
      (entryDeletionCriteria entry_id)).2.1.filter
      fun d => matchesCriteria d.metadata (entryDeletionCriteria entry_id)) = [] :=
    List.filter_eq_nil_iff.mpr (fun a ha => by simp [hno a ha])
  refine ⟨hfirst _ _, hfirst _ _, ?_, ?_⟩
  · generalize hc2 : (delete_documents_by_metadata col
      (entryDeletionCriteria entry_id)).2.1 = c2 at hfilter ⊢
    unfold delete_documents_by_metadata
    rw [hfilter]
    simp
  · generalize hc2 : (delete_documents_by_metadata col
      (entryDeletionCriteria entry_id)).2.1 = c2 at hfilter ⊢
    unfold delete_documents_by_metadata
    rw [hfilter]
    simp

theorem pyTokens_spec : ∀ (fuel : Nat) (l : List Char),
    ∀ t ∈ pyTokens fuel l, t ≠ [] ∧ ∀ c ∈ t, c.isWhitespace = false := by
  intro fuel
  induction fuel with
  | zero => intro l t ht; cases ht
  | succ f ih =>
    intro l t ht
    cases l with
    | nil => cases ht
    | cons c cs =>
      by_cases hws : c.isWhitespace
      · rw [show pyTokens (f + 1) (c :: cs) = pyTokens f cs by
          simp only [pyTokens]; rw [if_pos hws]] at ht
        exact ih cs t ht
      · rw [show pyTokens (f + 1) (c :: cs)
            = ((c :: cs).takeWhile (fun x => !x.isWhitespace))
              :: pyTokens f ((c :: cs).dropWhile (fun x => !x.isWhitespace)) by
          simp only [pyTokens]; rw [if_neg hws]] at ht
        rcases List.mem_cons.mp ht with rfl | ht
        · constructor
          · rw [List.takeWhile_cons_of_pos (by simpa using hws)]
            simp
          · intro x hx
            have := List.mem_takeWhile_imp hx
            simpa using this
        · exact ih _ t ht

theorem noDS_of_no_space : ∀ (t : List Char), (∀ c ∈ t, c ≠ ' ') →
    hasAdjacentSpaces t = false := by
  intro t
  induction t with
  | nil => intro _; rfl
  | cons x r ih =>
    intro h
    cases r with
    | nil => rfl
    | cons y r' =>
      show ((x = ' ' && y = ' ') || hasAdjacentSpaces (y :: r')) = false
      rw [ih (fun c hc => h c (List.mem_cons_of_mem x hc))]
      have hx : x ≠ ' ' := h x (List.mem_cons_self x _)
      simp [hx]

theorem noDS_token_append : ∀ (t : List Char), (∀ c ∈ t, c ≠ ' ') →
    ∀ (J : List Char), hasAdjacentSpaces J = false →
    (∀ c l', J = c :: l' → c ≠ ' ') →
    hasAdjacentSpaces (t ++ ' ' :: J) = false := by
  intro t
  induction t with
  | nil =>
    intro _ J hJ hhead
    cases J with
    | nil => rfl
    | cons c rest =>
      show ((' ' = ' ' && c = ' ') || hasAdjacentSpaces (c :: rest)) = false
      rw [hJ]
      have : c ≠ ' ' := hhead c rest rfl
      simp [this]
  | cons x t' ih =>
    intro ht J hJ hhead
    have hx : x ≠ ' ' := ht x (List.mem_cons_self x _)
    have ht' : ∀ c ∈ t', c ≠ ' ' := fun c hc => ht c (List.mem_cons_of_mem x hc)
    cases t' with
    | nil =>
      show ((x = ' ' && ' ' = ' ') || hasAdjacentSpaces (' ' :: J)) = false
      rw [show hasAdjacentSpaces (' ' :: J) = false from by
        cases J with
        | nil => rfl
        | cons c rest =>
          show ((' ' = ' ' && c = ' ') || hasAdjacentSpaces (c :: rest)) = false
          rw [hJ]
          simp [hhead c rest rfl]]
      simp [hx]
    | cons y t'' =>
      show ((x = ' ' && y = ' ')
        || hasAdjacentSpaces ((y :: t'') ++ ' ' :: J)) = false
      rw [ih ht' J hJ hhead]
      simp [hx]

theorem joinSpace_spec : ∀ (ts : List (List Char)),
    (∀ t ∈ ts, t ≠ [] ∧ ∀ c ∈ t, c.isWhitespace = false) →
    (∀ c ∈ joinSpace ts, c = ' ' ∨ c.isWhitespace = false)
    ∧ hasAdjacentSpaces (joinSpace ts) = false
    ∧ (∀ c l', joinSpace ts = c :: l' → c.isWhitespace = false)
    ∧ (∀ c, (joinSpace ts).getLast? = some c → c.isWhitespace = false) := by
  intro ts
  induction ts with
  | nil =>
    intro _
    refine ⟨fun c hc => absurd hc (List.not_mem_nil c), rfl, ?_, ?_⟩
    · intro c l' h; cases h
    · intro c h; cases h
  | cons t ts' ih =>
    intro hgood
    have hgt := hgood t (List.mem_cons_self t ts')
    have hgood' : ∀ u ∈ ts', u ≠ [] ∧ ∀ c ∈ u, c.isWhitespace = false :=
      fun u hu => hgood u (List.mem_cons_of_mem t hu)
    have hnospace : ∀ c ∈ t, c ≠ ' ' := by
      intro c hc hsp
      have := hgt.2 c hc
      rw [hsp] at this
      simp [Char.isWhitespace] at this
    cases ts' with
    | nil =>
      refine ⟨fun c hc => Or.inr (hgt.2 c hc), noDS_of_no_space t hnospace,
        ?_, ?_⟩
      · intro c l' h
        have h' : t = c :: l' := h
        exact hgt.2 c (by rw [h']; exact List.mem_cons_self c l')
      · intro c h
        exact hgt.2 c (List.mem_of_getLast?_eq_some h)
    | cons u ts'' =>
      obtain ⟨ihmem, ihds, ihhead, ihlast⟩ := ih hgood'
      have hJne : joinSpace (u :: ts'') ≠ [] := by
        intro hnil
        have hgu := hgood' u (List.mem_cons_self u ts'')
        cases ts'' with
        | nil => exact hgu.1 hnil
        | cons v ts3 =>
          rw [show joinSpace (u :: v :: ts3) = u ++ ' ' :: joinSpace (v :: ts3)
            from rfl] at hnil
          cases u with
          | nil => cases hnil
          | cons a b => cases hnil
      refine ⟨?_, ?_, ?_, ?_⟩
      · intro c hc
        rw [show joinSpace (t :: u :: ts'') = t ++ ' ' :: joinSpace (u :: ts'')
          from rfl] at hc
        rcases List.mem_append.mp hc with hc | hc
        · exact Or.inr (hgt.2 c hc)
        · rcases List.mem_cons.mp hc with rfl | hc
          · exact Or.inl rfl
          · exact ihmem c hc
      · show hasAdjacentSpaces (t ++ ' ' :: joinSpace (u :: ts'')) = false
        refine noDS_token_append t hnospace _ ihds ?_
        intro c l' hcl hsp
        have := ihhead c l' hcl
        rw [hsp] at this
        simp [Char.isWhitespace] at this
      · intro c l' h
        rw [show joinSpace (t :: u :: ts'') = t ++ ' ' :: joinSpace (u :: ts'')
          from rfl] at h
        cases t with
        | nil => exact absurd rfl hgt.1
        | cons a b =>
          rw [List.cons_append] at h
          have ha : a = c := ((List.cons.injEq a _ c l').mp h).1
          subst ha
          exact hgt.2 a (List.mem_cons_self a b)
      · intro c h
        rw [show joinSpace (t :: u :: ts'') = t ++ ' ' :: joinSpace (u :: ts'')
          from rfl] at h
        rw [List.getLast?_append_cons] at h
        rw [show (' ' :: joinSpace (u :: ts'')) = [' '] ++ joinSpace (u :: ts'')
          from rfl] at h
        rw [List.getLast?_append_of_ne_nil _ hJne] at h
        exact ihlast c h

theorem replaceAll_id_of_head_not_mem {p : Char} {ps rep : List Char} :
    ∀ (fuel : Nat) (l : List Char), p ∉ l →
    replaceAll (p :: ps) rep fuel l = l := by
  intro fuel
  induction fuel with
  | zero => intro l _; rfl
  | succ f ih =>
    intro l hp
    cases l with
    | nil => rfl
    | cons c cs =>
      have hpc : ¬ (p = c) := fun h => hp (h ▸ List.mem_cons_self c cs)
      have hsw : startsWithChars (p :: ps) (c :: cs) = false := by
        simp [startsWithChars, hpc]
      rw [show replaceAll (p :: ps) rep (f + 1) (c :: cs)
          = c :: replaceAll (p :: ps) rep f cs by
        simp only [replaceAll, hsw, Bool.and_false, Bool.false_eq_true,
          if_false]]
      rw [ih cs (fun h => hp (List.mem_cons_of_mem c h))]

theorem collapseLF_id_of_no_lf : ∀ (l : List Char), '\n' ∉ l →
    ∀ (prev : Bool), collapseLF prev l = l := by
  intro l
  induction l with
  | nil => intro _ prev; rfl
  | cons c cs ih =>
    intro h prev
    have hc : ¬ (c = '\n') := fun hh => h (hh ▸ List.mem_cons_self c cs)
    simp only [collapseLF]
    rw [if_neg hc, ih (fun hh => h (List.mem_cons_of_mem c hh)) false]

theorem stripChars_id {l : List Char}
    (hhead : ∀ c l', l = c :: l' → c.isWhitespace = false)
    (hlast : ∀ c, l.getLast? = some c → c.isWhitespace = false) :
    stripChars l = l := by
  unfold stripChars
  have h1 : l.dropWhile Char.isWhitespace = l := by
    cases l with
    | nil => rfl
    | cons c cs =>
      rw [List.dropWhile_cons_of_neg]
      simp [hhead c cs rfl]
  rw [h1]
  have h2 : l.reverse.dropWhile Char.isWhitespace = l.reverse := by
    cases hr : l.reverse with
    | nil => rfl
    | cons c cs =>
      rw [List.dropWhile_cons_of_neg]
      have hlc : l.getLast? = some c := by
        rw [← List.head?_reverse, hr]
        rfl
      simp [hlast c hlc]
  rw [h2, List.reverse_reverse]

theorem collapseWhitespace_spec (l : List Char) :
    (∀ c ∈ collapseWhitespace l, c = ' ' ∨ c.isWhitespace = false)
    ∧ hasAdjacentSpaces (collapseWhitespace l) = false
    ∧ (∀ c l', collapseWhitespace l = c :: l' → c.isWhitespace = false)
    ∧ (∀ c, (collapseWhitespace l).getLast? = some c →
        c.isWhitespace = false) :=
  joinSpace_spec _ (pyTokens_spec l.length l)

theorem collapsed_no_char {l : List Char} {ch : Char}
    (hws : ch.isWhitespace = true) (hne : ch ≠ ' ') :
    ch ∉ collapseWhitespace l := by
  intro hmem
  rcases (collapseWhitespace_spec l).1 ch hmem with h | h
  · exact hne h
  · rw [h] at hws; cases hws

theorem normalize_id_on_collapsed (l : List Char) :
    normalize_line_breaks_step (collapseWhitespace l)
      = collapseWhitespace l := by
  unfold normalize_line_breaks_step
  have hnr : '\r' ∉ collapseWhitespace l :=
    collapsed_no_char (by decide) (by decide)
  rw [replaceAll_id_of_head_not_mem _ _ hnr]
  rw [replaceAll_id_of_head_not_mem _ _ hnr]
  exact collapseLF_id_of_no_lf _
    (collapsed_no_char (by decide) (by decide)) false

theorem noDS_take : ∀ (l : List Char), hasAdjacentSpaces l = false →
    ∀ (n : Nat), hasAdjacentSpaces (l.take n) = false := by
  intro l
  induction l with
  | nil => intro _ n; rw [List.take_nil]; rfl
  | cons a l' ih =>
    intro h n
    cases n with
    | zero => rfl
    | succ n' =>
      rw [List.take_succ_cons]
      cases l' with
      | nil =>
        rw [List.take_nil]
        rfl
      | cons b r =>
        have hor : (decide (a = ' ') && decide (b = ' ')) = false
            ∧ hasAdjacentSpaces (b :: r) = false :=
          Bool.or_eq_false_iff.mp h
        cases n' with
        | zero => rfl
        | succ m =>
          rw [List.take_succ_cons]
          show ((decide (a = ' ') && decide (b = ' '))
            || hasAdjacentSpaces (b :: r.take m)) = false
          rw [hor.1, Bool.false_or]
          have := ih hor.2 (m + 1)
          rw [List.take_succ_cons] at this
          exact this

theorem preprocess_pipeline_eq (content : String) (h : content ≠ "") :
    preprocess_content pipelinePreprocessor content
      = (if (collapseWhitespace content.data).length < 3 then ""
         else if (10000 : Nat) ≠ 0
             ∧ (collapseWhitespace content.data).length > 10000 then
           String.mk ((collapseWhitespace content.data).take 10000)
         else String.mk (collapseWhitespace content.data)) := by
  unfold preprocess_content
  rw [if_neg h]
  have hnorm := normalize_id_on_collapsed content.data
  have hcw := collapseWhitespace_spec content.data
  have hstrip := stripChars_id hcw.2.2.1 hcw.2.2.2
  show (if (stripChars (normalize_line_breaks_step
          (collapseWhitespace content.data))).length < 3 then ""
        else if (10000 : Nat) ≠ 0
            ∧ (stripChars (normalize_line_breaks_step
              (collapseWhitespace content.data))).length > 10000 then
          String.mk ((stripChars (normalize_line_breaks_step
            (collapseWhitespace content.data))).take 10000)
        else String.mk (stripChars (normalize_line_breaks_step
          (collapseWhitespace content.data)))) = _
  rw [hnorm, hstrip]

theorem preprocess_output_shape (content : String) :
    (preprocess_content pipelinePreprocessor content).data = []
    ∨ (preprocess_content pipelinePreprocessor content).data
        = collapseWhitespace content.data
    ∨ (preprocess_content pipelinePreprocessor content).data
        = (collapseWhitespace content.data).take 10000 := by
  by_cases hc : content = ""
  · left
    rw [show preprocess_content pipelinePreprocessor content = "" by
      unfold preprocess_content; rw [if_pos hc]]
  · rw [preprocess_pipeline_eq content hc]
    by_cases h1 : (collapseWhitespace content.data).length < 3
    · left; rw [if_pos h1]
    · rw [if_neg h1]
      by_cases h2 : (10000 : Nat) ≠ 0
          ∧ (collapseWhitespace content.data).length > 10000
      · right; right; rw [if_pos h2]
      · right; left; rw [if_neg h2]

/-- C10.  With the options the pipeline configures
(`remove_extra_whitespace = True`, `normalize_line_breaks = True`), the
normalized output contains no newline, carriage-return or tab character
and no two consecutive spaces, and the whitespace-collapse step (which
runs first and replaces every whitespace run, line breaks included,
with a single space) leaves nothing for the line-break-normalization
step to do: that step is the identity on collapsed text.  In
particular the chunker's `"\n\n"` and `"\n"` separators can never match
inside preprocessed content. -/
theorem preprocess_whitespace_invariants (content : String) :
    (∀ c ∈ (preprocess_content pipelinePreprocessor content).data,
        c ≠ '\n' ∧ c ≠ '\r' ∧ c ≠ '\t')
    ∧ hasAdjacentSpaces
        (preprocess_content pipelinePreprocessor content).data = false
    ∧ normalize_line_breaks_step (collapseWhitespace content.data)
        = collapseWhitespace content.data := by
  have hcw := collapseWhitespace_spec content.data
  have hshape := preprocess_output_shape content
  have hmem : ∀ c ∈ (preprocess_content pipelinePreprocessor content).data,
      c = ' ' ∨ c.isWhitespace = false := by
    rcases hshape with h | h | h <;> rw [h]
    · intro c hc; cases hc
    · exact hcw.1
    · intro c hc
      exact hcw.1 c (List.take_subset _ _ hc)
  refine ⟨?_, ?_, normalize_id_on_collapsed content.data⟩
  · intro c hc
    rcases hmem c hc with h | h
    · exact ⟨by rw [h]; decide, by rw [h]; decide, by rw [h]; decide⟩
    · refine ⟨?_, ?_, ?_⟩ <;> intro heq <;> rw [heq] at h <;>
        exact absurd h (by decide)
  · rcases hshape with h | h | h <;> rw [h]
    · rfl
    · exact hcw.2.1
    · exact noDS_take _ hcw.2.1 10000

end Diary
